import Mathlib

/-!
Verification development for the go-tools repository.

This file shallowly embeds the two engines the specification covers:

* the syntactic pattern matcher of `pattern/match.go` (binding frames,
  `Or`/`Not`/`List`/`Binding` semantics, the generic `match` driver,
  and the alias-chasing branch of `Symbol.Match`), and
* parts of the SSI lifting pass of `go/ir/lift.go` (the `RunDefers`
  elision and compaction skeleton of `lift`, the interval-compressed
  transitive-closure index `closure`/`transitiveClosure`, and the
  φ-insertion loop of `liftAlloc` together with `BlockSet`).

Each definition is translated from the named Go source function; doc
comments record the correspondence.
-/

set_option maxHeartbeats 1000000
set_option linter.unusedVariables false

namespace PatternMatch

/-- Host-side values seen by the matcher, modelling the dynamic `any`
values of `pattern/match.go`: the untyped Go `nil`, strings, tokens
(`token.Token`, by numeric code), AST nodes (a kind name plus an ordered
field list, modelling the reflective field-wise traversal), and
homogeneous sequences (the `[]ast.Expr` / `[]ast.Stmt` / `[]*ast.Field`
slices). -/
inductive Value where
  | null
  | str (s : String)
  | tok (t : Nat)
  | node (kind : String) (fields : List Value)
  | seq (elems : List Value)

/-- Discriminator for the host's untyped null (`isNil` on the value
side). -/
def Value.isNull : Value → Bool
  | .null => true
  | _ => false

/-- Pattern-side nodes, modelling the `Node` variants of the pattern
package that the claims exercise: `Any`, `Nil`, `String`, `Token`,
`List`, `Binding`, raw node kinds (matched by `matchNodeAST`), `Or` and
`Not`.  A Go `nil` stored in a `Node` field (for example `List{}.Head`
or `Binding.Node`) is represented by `PNode.nil`, exactly as `isNil`
treats `nil` and `Nil{}` alike. -/
inductive PNode where
  | any
  | nil
  | str (s : String)
  | tok (t : Nat)
  | list (head tail : PNode)
  | binding (name : String) (sub : PNode)
  | node (kind : String) (fields : List PNode)
  | or (alts : List PNode)
  | not (sub : PNode)

/-- `tokensByString` from `match.go`, restricted to a representative
subset of entries (the full table maps dozens of spellings to
`token.Token` codes; no claim depends on which spellings are present).
The numeric codes are those of `go/token`. -/
def tokensByString (s : String) : Option Nat :=
  if s = "INT" then some 5
  else if s = "FLOAT" then some 6
  else if s = "STRING" then some 9
  else if s = "+" then some 12
  else if s = "-" then some 13
  else if s = "==" then some 39
  else none

/-- `isNil` on the pattern side: `Binding.Node` and `List.Head` treat a
Go `nil` and `Nil{}` alike; both are `PNode.nil` in this embedding. -/
def isNilP : PNode → Bool
  | .nil => true
  | _ => false

/-- The matcher's `State` map (`map[string]any`), as an association list
with the most recent entry first. -/
abbrev Binds := List (String × Value)

/-- Lookup in the `State` map. -/
def lookupB (nm : String) : Binds → Option Value
  | [] => none
  | (k, v) :: rest => if k = nm then some v else lookupB nm rest

/-- `delete(m.State, key)`. -/
def eraseName (nm : String) (b : Binds) : Binds :=
  b.filter (fun q => !(q.1 == nm))

/-- The `Matcher` state: the bindings map plus the stack of binding
frames.  In the source each frame is a bitset over `bindingsMapping`
recording which binding names were set in that frame; here a frame is
the list of those names. -/
structure MState where
  state : Binds
  frames : List (List String)

/-- `Matcher.push`: open a fresh, empty frame. -/
def MState.push (s : MState) : MState :=
  { s with frames := [] :: s.frames }

/-- `Matcher.pop`: unset every name the top frame recorded and discard
the frame.  (With an empty stack the source would panic; the model
leaves the state unchanged, which no balanced caller can observe.) -/
def MState.pop (s : MState) : MState :=
  match s.frames with
  | [] => s
  | f :: fs => { state := f.foldl (fun acc nm => eraseName nm acc) s.state, frames := fs }

/-- `Matcher.merge`: discard the top frame but keep its effects.  Note
that, as in the source, the discarded frame's recorded names are *not*
folded into the parent frame. -/
def MState.merge (s : MState) : MState :=
  match s.frames with
  | [] => s
  | _ :: fs => { s with frames := fs }

/-- `Matcher.set`: record the binding in the map and mark its name in
the top frame. -/
def MState.set (s : MState) (nm : String) (v : Value) : MState :=
  { state := (nm, v) :: s.state,
    frames :=
      match s.frames with
      | [] => []
      | f :: fs => (nm :: f) :: fs }

mutual

/-- The generic `match` driver restricted to two host values (left side
a previously bound value): the `l == nil || r == nil` rule, `matchAST`
(same dynamic type, field-wise comparison skipping positions), and the
slice blocks that wrap a lone element as a one-element sequence when the
other side is a slice.  No matcher state is touched on this path. -/
def valueMatch : Value → Value → Bool
  | .null, .null => true
  | .null, _ => false
  | _, .null => false
  | .node k fs, .node k2 fs2 => k == k2 && nodeFieldsMatch fs fs2
  | .seq xs, .seq ys => seqMatch xs ys
  | .seq [x], .node k fs => valueMatch x (.node k fs)
  | .node k fs, .seq [y] => valueMatch (.node k fs) y
  | _, _ => false
termination_by a b => sizeOf a + sizeOf b

/-- The field loop of `matchAST`: both nodes have the same kind, fields
are compared pairwise. -/
def nodeFieldsMatch : List Value → List Value → Bool
  | [], [] => true
  | a :: as_, b :: bs => fieldMatch a b && nodeFieldsMatch as_ bs
  | _, _ => false
termination_by xs ys => sizeOf xs + sizeOf ys

/-- One field comparison in `matchAST`: `reflect.String` and
`reflect.Int` fields compare by equality; slice, pointer and interface
fields recurse through the driver. -/
def fieldMatch : Value → Value → Bool
  | .str x, .str y => x == y
  | .tok x, .tok y => x == y
  | a, b => valueMatch a b
termination_by a b => sizeOf a + sizeOf b + 1

/-- The slice comparison of the driver: equal lengths, elements matched
pairwise through the driver. -/
def seqMatch : List Value → List Value → Bool
  | [], [] => true
  | x :: xs, y :: ys => valueMatch x y && seqMatch xs ys
  | _, _ => false
termination_by xs ys => sizeOf xs + sizeOf ys

end

mutual

/-- The `match(m, l, r)` driver of `match.go` for a pattern-side `l`,
together with the `Match` methods of the variants (`Any`, `Nil`,
`String`, `Token`, `List`, `Binding`, `Or`, `Not`) and `matchNodeAST`
for raw node kinds.  The result is `none` when the source would panic
(`binding already created`), otherwise `some (returned value, matched?,
new matcher state)`. -/
def matchPat : PNode → Value → MState → Option (Value × Bool × MState)
  | .any, v, s => some (v, true, s)
  | .nil, v, s =>
      -- Nil.Match: the untyped nil (model `Value.null`); nil
      -- channels/maps/slices are not distinguished in the model.
      some (.null, v.isNull, s)
  | .str str, v, s =>
      -- String.Match
      match v with
      | .tok o =>
          (match tokensByString str with
           | some t => some (.tok o, t == o, s)
           | none => some (.null, false, s))
      | .str o => some (.str o, str == o, s)
      | _ => some (.null, false, s)
  | .tok t, v, s =>
      -- Token.Match
      match v with
      | .tok o => some (.tok o, t == o, s)
      | _ => some (.null, false, s)
  | .list h tl, v, s =>
      -- List.Match: only slice-like values can match; the empty list
      -- (nil Head) matches exactly the empty sequence; otherwise head
      -- and tail are both evaluated (as in the source, the tail is
      -- evaluated even when the head failed).
      match v with
      | .seq xs =>
          if isNilP h then some (.seq xs, xs.isEmpty, s)
          else
            (match xs with
             | [] => some (.null, false, s)
             | x :: rest =>
                 match matchPat h x s with
                 | none => none
                 | some (_, ok1, s1) =>
                     match matchPat tl (.seq rest) s1 with
                     | none => none
                     | some (_, ok2, s2) => some (.seq xs, ok1 && ok2, s2))
      | _ => some (.null, false, s)
  | .binding nm sub, v, s =>
      -- Binding.Match
      if isNilP sub then
        match lookupB nm s.state with
        | some bv =>
            -- Recall value: structural re-match against the stored value.
            some (if valueMatch bv v then v else .null, valueMatch bv v, s)
        | none =>
            -- b.Node = Any{}; the duplicate check cannot fire; Any
            -- matches anything and the value is recorded.
            some (v, true, s.set nm v)
      else
        match lookupB nm s.state with
        | some _ => none  -- panic "binding already created"
        | none =>
            match matchPat sub v s with
            | none => none
            | some (new, ret, s1) =>
                if ret then some (new, true, s1.set nm new)
                else some (new, ret, s1)
  | .node kind fields, v, s =>
      -- matchNodeAST: a one-element sequence is unwrapped; an AST node
      -- matches when the kinds agree and the fields match positionally.
      match v with
      | .seq [x] => matchPat (.node kind fields) x s
      | .seq _ => some (.null, false, s)
      | .node k fs =>
          if kind == k then matchFields fields fs (.node k fs) s
          else some (.null, false, s)
      | _ => some (.null, false, s)
  | .or alts, v, s => matchOr alts v s
  | .not q, v, s =>
      -- Not.Match: succeed iff the child fails; no rollback of the
      -- child's effects is performed.
      match matchPat q v s with
      | none => none
      | some (_, ok, s1) => if ok then some (.null, false, s1) else some (v, true, s1)
termination_by p v s => sizeOf p + sizeOf v

/-- The loop of `Or.Match`: push a frame, try the alternative; merge on
success, pop and continue on failure. -/
def matchOr : List PNode → Value → MState → Option (Value × Bool × MState)
  | [], _, s => some (.null, false, s)
  | p :: rest, v, s =>
      match matchPat p v s.push with
      | none => none
      | some (ret, ok, s1) =>
          if ok then some (ret, true, s1.merge) else matchOr rest v s1.pop
termination_by alts v s => sizeOf alts + sizeOf v

/-- The field loop of `matchNodeAST`: fields are matched in order with
an early exit on the first failure; `b` is the whole right-hand node
(the value `matchNodeAST` returns). -/
def matchFields : List PNode → List Value → Value → MState → Option (Value × Bool × MState)
  | [], [], b, s => some (b, true, s)
  | p :: ps, f :: fs, b, s =>
      match matchPat p f s with
      | none => none
      | some (_, ok, s1) => if ok then matchFields ps fs b s1 else some (b, false, s1)
  | _, _, _, s => some (.null, false, s)
termination_by ps fs b s => sizeOf ps + sizeOf fs

end


/-! ### Basic lemmas about the bindings map -/

theorem lookupB_eq_none_iff (nm : String) (st : Binds) :
    lookupB nm st = none ↔ ∀ q ∈ st, q.1 ≠ nm := by
  induction st with
  | nil => simp [lookupB]
  | cons q rest ih =>
      by_cases h : q.1 = nm
      · simp [lookupB, h]
      · simp [lookupB, h, ih]

theorem lookupB_append_eq_none (nm : String) (a b : Binds) :
    lookupB nm (a ++ b) = none ↔ lookupB nm a = none ∧ lookupB nm b = none := by
  induction a with
  | nil => simp [lookupB]
  | cons q rest ih =>
      by_cases h : q.1 = nm
      · simp [lookupB, h]
      · simp [lookupB, h, ih]



theorem eraseName_append (nm : String) (a b : Binds) :
    eraseName nm (a ++ b) = eraseName nm a ++ eraseName nm b := by
  simp [eraseName, List.filter_append]

/-- `pop`'s fold of `delete`s removes exactly the entries whose name is
in the frame. -/
theorem eraseFold_eq_filter (names : List String) (st : Binds) :
    names.foldl (fun acc nm => eraseName nm acc) st =
      st.filter (fun q => !(names.contains q.1)) := by
  induction names generalizing st with
  | nil => simp
  | cons nm ns ih =>
      rw [List.foldl_cons, ih]
      simp only [eraseName, List.filter_filter]
      apply List.filter_congr
      intro q _
      by_cases h : q.1 = nm
      · simp [h]
      · simp [h, Ne.symm h]

theorem filter_of_names_nil (Δ : Binds) (names : List String)
    (h : ∀ q ∈ Δ, q.1 ∈ names) :
    Δ.filter (fun q => !(names.contains q.1)) = [] := by
  induction Δ with
  | nil => simp
  | cons q Δ ih =>
      have hq : names.contains q.1 = true := by
        have := h q (by simp)
        simpa [List.contains, List.elem_iff] using this
      simp only [List.filter_cons, hq]
      simpa using ih (fun p hp => h p (by simp [hp]))

theorem filter_of_fresh (st : Binds) (names : List String)
    (h : ∀ nm ∈ names, lookupB nm st = none) :
    st.filter (fun q => !(names.contains q.1)) = st := by
  apply List.filter_eq_self.2
  intro q hq
  have hnm : q.1 ∉ names := by
    intro hmem
    exact ((lookupB_eq_none_iff q.1 st).1 (h q.1 hmem) q hq) rfl
  have hc : names.contains q.1 = false := by
    rw [← Bool.not_eq_true]
    intro hcc
    exact hnm (by simpa [List.contains, List.elem_iff] using hcc)
  simpa using hnm

mutual

/-- `Or`-free patterns: patterns whose evaluation never pushes, pops or
merges a frame, so every binding they create is recorded in the current
top frame. -/
def orFree : PNode → Bool
  | .any => true
  | .nil => true
  | .str _ => true
  | .tok _ => true
  | .list h t => orFree h && orFree t
  | .binding _ sub => orFree sub
  | .node _ fields => orFreeList fields
  | .or _ => false
  | .not q => orFree q

def orFreeList : List PNode → Bool
  | [] => true
  | p :: ps => orFree p && orFreeList ps

end

/-- Appending two fresh binding deltas is again a fresh binding delta. -/
theorem shape_compose {st : Binds} {Δ1 Δ2 : Binds}
    (h1 : ∀ q ∈ Δ1, lookupB q.1 st = none)
    (h2 : ∀ q ∈ Δ2, lookupB q.1 (Δ1 ++ st) = none) :
    ∀ q ∈ Δ2 ++ Δ1, lookupB q.1 st = none := by
  intro q hq
  rcases List.mem_append.1 hq with h | h
  · exact ((lookupB_append_eq_none q.1 Δ1 st).1 (h2 q h)).2
  · exact h1 q h

mutual

/-- State-shape invariant of the matcher on `Or`-free patterns: such a
match only prepends fresh bindings to the `State` map and records
exactly their names in the top frame. -/
theorem matchPat_state_shape (p : PNode) (v : Value) (st : Binds)
    (f : List String) (fs : List (List String)) (out : Value × Bool × MState)
    (hfree : orFree p = true)
    (hm : matchPat p v ⟨st, f :: fs⟩ = some out) :
    ∃ Δ : Binds, out.2.2.state = Δ ++ st ∧
      out.2.2.frames = (Δ.map Prod.fst ++ f) :: fs ∧
      ∀ q ∈ Δ, lookupB q.1 st = none := by
  cases p with
  | any =>
      simp only [matchPat] at hm
      injection hm with hm; subst hm
      exact ⟨[], rfl, rfl, by simp⟩
  | nil =>
      simp only [matchPat] at hm
      injection hm with hm; subst hm
      exact ⟨[], rfl, rfl, by simp⟩
  | str s0 =>
      cases v <;> simp only [matchPat] at hm
      case tok o =>
        rcases htk : tokensByString s0 with _ | t <;> simp only [htk] at hm <;>
          (injection hm with hm; subst hm; exact ⟨[], rfl, rfl, by simp⟩)
      all_goals (injection hm with hm; subst hm; exact ⟨[], rfl, rfl, by simp⟩)
  | tok t0 =>
      cases v <;> simp only [matchPat] at hm <;>
        (injection hm with hm; subst hm; exact ⟨[], rfl, rfl, by simp⟩)
  | list h tl =>
      have hfh : orFree h = true := by
        have hx := hfree; simp only [orFree, Bool.and_eq_true] at hx; exact hx.1
      have hft : orFree tl = true := by
        have hx := hfree; simp only [orFree, Bool.and_eq_true] at hx; exact hx.2
      cases v
      case seq xs =>
          cases xs with
          | nil =>
              simp only [matchPat] at hm
              by_cases hn : isNilP h = true <;>
                simp only [hn, if_true, if_false, Bool.false_eq_true] at hm <;>
                  (injection hm with hm; subst hm; exact ⟨[], rfl, rfl, by simp⟩)
          | cons x rest =>
              simp only [matchPat] at hm
              by_cases hn : isNilP h = true
              · simp only [hn, if_true] at hm
                injection hm with hm; subst hm
                exact ⟨[], rfl, rfl, by simp⟩
              · simp only [hn, if_false, Bool.false_eq_true] at hm
                rcases h1 : matchPat h x ⟨st, f :: fs⟩ with _ | ⟨r1, ok1, s1⟩
                · simp only [h1] at hm
                  exact Option.noConfusion hm
                · simp only [h1] at hm
                  obtain ⟨Δ1, e1, e2, e3⟩ :=
                    matchPat_state_shape h x st f fs (r1, ok1, s1) hfh h1
                  obtain ⟨st1, fr1⟩ := s1
                  simp only at e1 e2
                  subst e1; subst e2
                  rcases h2 : matchPat tl (.seq rest)
                      ⟨Δ1 ++ st, (Δ1.map Prod.fst ++ f) :: fs⟩
                      with _ | ⟨r2, ok2, s2⟩
                  · simp only [h2] at hm
                    exact Option.noConfusion hm
                  · simp only [h2] at hm
                    obtain ⟨Δ2, g1, g2, g3⟩ :=
                      matchPat_state_shape tl (.seq rest) (Δ1 ++ st)
                        (Δ1.map Prod.fst ++ f) fs (r2, ok2, s2) hft h2
                    injection hm with hm; subst hm
                    refine ⟨Δ2 ++ Δ1, ?_, ?_, shape_compose e3 g3⟩
                    · simpa using g1
                    · simpa using g2
      all_goals (simp only [matchPat] at hm; injection hm with hm; subst hm;
                 exact ⟨[], rfl, rfl, by simp⟩)
  | binding nm sub =>
      have hfs : orFree sub = true := by
        have hx := hfree; simpa only [orFree] using hx
      simp only [matchPat] at hm
      by_cases hn : isNilP sub = true
      · simp only [hn, if_true] at hm
        rcases hlk : lookupB nm st with _ | bv
        · -- first use with nil sub: bind the node itself
          simp only [hlk] at hm
          injection hm with hm; subst hm
          refine ⟨[(nm, v)], ?_, ?_, ?_⟩
          · simp [MState.set]
          · simp [MState.set]
          · intro q hq
            simp only [List.mem_singleton] at hq
            subst hq; exact hlk
        · -- recall: state untouched
          simp only [hlk] at hm
          injection hm with hm; subst hm
          exact ⟨[], rfl, rfl, by simp⟩
      · simp only [hn, if_false, Bool.false_eq_true] at hm
        rcases hlk : lookupB nm st with _ | bv
        · simp only [hlk] at hm
          rcases h1 : matchPat sub v ⟨st, f :: fs⟩ with _ | ⟨new, ret, s1⟩
          · simp only [h1] at hm
            exact Option.noConfusion hm
          · simp only [h1] at hm
            obtain ⟨Δ1, e1, e2, e3⟩ :=
              matchPat_state_shape sub v st f fs (new, ret, s1) hfs h1
            obtain ⟨st1, fr1⟩ := s1
            simp only at e1 e2
            subst e1; subst e2
            cases ret with
            | false =>
                simp only [if_false, Bool.false_eq_true] at hm
                injection hm with hm; subst hm
                exact ⟨Δ1, rfl, rfl, e3⟩
            | true =>
                simp only [if_true] at hm
                injection hm with hm; subst hm
                refine ⟨(nm, new) :: Δ1, ?_, ?_, ?_⟩
                · simp [MState.set]
                · simp [MState.set]
                · intro q hq
                  rcases List.mem_cons.1 hq with h | h
                  · subst h; exact hlk
                  · exact e3 q h
        · simp only [hlk] at hm
          exact Option.noConfusion hm
  | node kind fields =>
      have hff : orFreeList fields = true := by
        have hx := hfree; simpa only [orFree] using hx
      cases v
      case node k fs2 =>
          simp only [matchPat] at hm
          by_cases hk : (kind == k) = true
          · simp only [hk, if_true] at hm
            exact matchFields_state_shape fields fs2 (.node k fs2) st f fs out hff hm
          · simp only [hk, if_false, Bool.false_eq_true] at hm
            injection hm with hm; subst hm
            exact ⟨[], rfl, rfl, by simp⟩
      case seq xs =>
          cases xs with
          | nil =>
              simp only [matchPat] at hm
              injection hm with hm; subst hm
              exact ⟨[], rfl, rfl, by simp⟩
          | cons x rest =>
              cases rest with
              | nil =>
                  simp only [matchPat] at hm
                  exact matchPat_state_shape (.node kind fields) x st f fs out hfree hm
              | cons y rest2 =>
                  simp only [matchPat] at hm
                  injection hm with hm; subst hm
                  exact ⟨[], rfl, rfl, by simp⟩
      all_goals (simp only [matchPat] at hm; injection hm with hm; subst hm;
                 exact ⟨[], rfl, rfl, by simp⟩)
  | or alts => simp [orFree] at hfree
  | not q =>
      have hfq : orFree q = true := by
        have hx := hfree; simpa only [orFree] using hx
      simp only [matchPat] at hm
      rcases h1 : matchPat q v ⟨st, f :: fs⟩ with _ | ⟨r1, ok1, s1⟩
      · simp only [h1] at hm
        exact Option.noConfusion hm
      · simp only [h1] at hm
        obtain ⟨Δ1, e1, e2, e3⟩ :=
          matchPat_state_shape q v st f fs (r1, ok1, s1) hfq h1
        cases ok1 <;>
          simp only [if_true, if_false, Bool.false_eq_true] at hm <;>
            (injection hm with hm; subst hm; exact ⟨Δ1, e1, e2, e3⟩)
termination_by sizeOf p + sizeOf v

theorem matchFields_state_shape (ps : List PNode) (fsv : List Value) (b : Value)
    (st : Binds) (f : List String) (fs : List (List String))
    (out : Value × Bool × MState)
    (hfree : orFreeList ps = true)
    (hm : matchFields ps fsv b ⟨st, f :: fs⟩ = some out) :
    ∃ Δ : Binds, out.2.2.state = Δ ++ st ∧
      out.2.2.frames = (Δ.map Prod.fst ++ f) :: fs ∧
      ∀ q ∈ Δ, lookupB q.1 st = none := by
  cases ps with
  | nil =>
      cases fsv <;> simp only [matchFields] at hm <;>
        (injection hm with hm; subst hm; exact ⟨[], rfl, rfl, by simp⟩)
  | cons p ps2 =>
      have hfp : orFree p = true := by
        have hx := hfree; simp only [orFreeList, Bool.and_eq_true] at hx; exact hx.1
      have hfr : orFreeList ps2 = true := by
        have hx := hfree; simp only [orFreeList, Bool.and_eq_true] at hx; exact hx.2
      cases fsv with
      | nil =>
          simp only [matchFields] at hm
          injection hm with hm; subst hm
          exact ⟨[], rfl, rfl, by simp⟩
      | cons fv fvs =>
          simp only [matchFields] at hm
          rcases h1 : matchPat p fv ⟨st, f :: fs⟩ with _ | ⟨r1, ok1, s1⟩
          · simp only [h1] at hm
            exact Option.noConfusion hm
          · simp only [h1] at hm
            obtain ⟨Δ1, e1, e2, e3⟩ :=
              matchPat_state_shape p fv st f fs (r1, ok1, s1) hfp h1
            obtain ⟨st1, fr1⟩ := s1
            simp only at e1 e2
            subst e1; subst e2
            cases ok1 with
            | false =>
                simp only [if_false, Bool.false_eq_true] at hm
                injection hm with hm; subst hm
                exact ⟨Δ1, rfl, rfl, e3⟩
            | true =>
                simp only [if_true] at hm
                obtain ⟨Δ2, g1, g2, g3⟩ :=
                  matchFields_state_shape ps2 fvs b (Δ1 ++ st)
                    (Δ1.map Prod.fst ++ f) fs out hfr hm
                refine ⟨Δ2 ++ Δ1, ?_, ?_, shape_compose e3 g3⟩
                · simpa using g1
                · simpa using g2
termination_by sizeOf ps + sizeOf fsv

end


/-- Popping a frame that records exactly a fresh delta restores the
bindings map. -/
theorem pop_fresh_delta (Δ st : Binds) (fr : List (List String))
    (h : ∀ q ∈ Δ, lookupB q.1 st = none) :
    MState.pop ⟨Δ ++ st, (Δ.map Prod.fst) :: fr⟩ = ⟨st, fr⟩ := by
  have h1 : Δ.filter (fun q => !((Δ.map Prod.fst).contains q.1)) = [] :=
    filter_of_names_nil Δ (Δ.map Prod.fst) (fun q hq => List.mem_map_of_mem _ hq)
  have h2 : st.filter (fun q => !((Δ.map Prod.fst).contains q.1)) = st := by
    apply filter_of_fresh
    intro nm hnm
    rcases List.mem_map.1 hnm with ⟨q, hq, rfl⟩
    exact h q hq
  simp only [MState.pop]
  rw [eraseFold_eq_filter, List.filter_append, h1, h2]
  simp

/-- For an `Or`-free alternative, `pop` after `push` undoes every
binding the attempt made. -/
theorem matchPat_push_rollback (p : PNode) (v : Value) (s : MState)
    (out : Value × Bool × MState)
    (hfree : orFree p = true)
    (hm : matchPat p v s.push = some out) :
    out.2.2.pop = s := by
  obtain ⟨st0, fr0⟩ := s
  have hm2 : matchPat p v ⟨st0, [] :: fr0⟩ = some out := hm
  obtain ⟨Δ, e1, e2, e3⟩ := matchPat_state_shape p v st0 [] fr0 out hfree hm2
  rcases hout : out.2.2 with ⟨stx, frx⟩
  rw [hout] at e1 e2
  simp only at e1 e2
  subst e1
  simp only [List.append_nil] at e2
  subst e2
  exact pop_fresh_delta Δ st0 fr0 e3

/-- C1 (amended): matching `Not{q}` against `n` succeeds exactly when
matching `q` against `n` fails, and `Not` performs no rollback: the
matcher state after the `Not` match is exactly the state left behind by
evaluating `q`, so bindings created by the child (whether `q` failed
partway or succeeded, making `Not` fail) remain observable; a panic of
the child propagates. -/
theorem c1_not_match_amended (q : PNode) (v : Value) (s : MState) :
    (∀ r ok s1, matchPat q v s = some (r, ok, s1) →
        matchPat (.not q) v s = some ((if ok then Value.null else v), !ok, s1)) ∧
    (matchPat q v s = none → matchPat (.not q) v s = none) := by
  constructor
  · intro r ok s1 h
    cases ok <;> simp [matchPat, h]
  · intro h
    simp [matchPat, h]

/-- C1 counterexample: the claim "the matcher's bindings after the
`Not` match are exactly the bindings before it" is false.  Matching
`Not{List{x@Any, nil}}` against the one-element sequence `["a"]`
succeeds (the child fails on its tail), yet the binding `x ↦ "a"` made
by the child before failing is still present afterwards. -/
theorem c1_not_binding_escape_counterexample :
    (matchPat (.not (.list (.binding "x" .any) .nil)) (.seq [.str "a"]) ⟨[], [[]]⟩ =
        some (.seq [.str "a"], true, ⟨[("x", .str "a")], [["x"]]⟩)) ∧
    lookupB "x" ([] : Binds) = none ∧
    lookupB "x" [("x", Value.str "a")] = some (.str "a") := by
  refine ⟨?_, ?_, ?_⟩
  · simp [matchPat, isNilP, lookupB, MState.set, Value.isNull]
  · simp [lookupB]
  · simp [lookupB]

/-- Witness for `c1_not_match_amended` at `q = Any`, `v = "a"`. -/
theorem c1_not_match_amended_witness :
    matchPat (.not .any) (.str "a") ⟨[], [[]]⟩ =
      some (.null, false, ⟨[], [[]]⟩) := by
  have h : matchPat .any (.str "a") ⟨[], [[]]⟩ =
      some (.str "a", true, ⟨[], [[]]⟩) := by
    simp [matchPat]
  exact (c1_not_match_amended .any (.str "a") ⟨[], [[]]⟩).1 (.str "a") true ⟨[], [[]]⟩ h

/-- C3 (amended): `Or` returns the first alternative (in list order)
that matches and does not consult later alternatives once one succeeds;
when an alternative fails the matcher pops the frame it pushed for that
alternative, which removes exactly the bindings recorded in that frame —
for an alternative containing no nested `Or` this removes every binding
the attempt created, but bindings introduced under a nested successful
`Or` were merged away from the frame record and survive the rollback. -/
theorem c3_or_match_amended (p : PNode) (rest : List PNode) (v : Value) (s : MState) :
    (∀ r s1, matchPat p v s.push = some (r, true, s1) →
        matchPat (.or (p :: rest)) v s = some (r, true, s1.merge)) ∧
    (∀ r s1, matchPat p v s.push = some (r, false, s1) →
        matchPat (.or (p :: rest)) v s = matchPat (.or rest) v s1.pop) ∧
    (∀ r ok s1, orFree p = true → matchPat p v s.push = some (r, ok, s1) →
        s1.pop = s) := by
  refine ⟨?_, ?_, ?_⟩
  · intro r s1 h
    simp [matchPat, matchOr, h]
  · intro r s1 h
    simp [matchPat, matchOr, h]
  · intro r ok s1 hfree h
    exact matchPat_push_rollback p v s (r, ok, s1) hfree h

/-- C3 counterexample: "bindings from failed alternatives are never
observable" is false.  The first alternative `List{Or{x@Any}, nil}`
fails against `["a"]`, but the binding `x ↦ "a"` it made was recorded in
the nested `Or`'s merged frame, so the outer pop does not remove it; the
second alternative then succeeds and `x` is still bound in the final
state. -/
theorem c3_or_rollback_counterexample :
    (matchPat (.list (.or [.binding "x" .any]) .nil) (.seq [.str "a"])
        (MState.push ⟨[], [[]]⟩) =
      some (.seq [.str "a"], false, ⟨[("x", .str "a")], [[], []]⟩)) ∧
    (matchPat (.or [.list (.or [.binding "x" .any]) .nil, .binding "y" .any])
        (.seq [.str "a"]) ⟨[], [[]]⟩ =
      some (.seq [.str "a"], true,
        ⟨[("y", .seq [.str "a"]), ("x", .str "a")], [[]]⟩)) ∧
    lookupB "x" [("y", Value.seq [.str "a"]), ("x", .str "a")] = some (.str "a") := by
  refine ⟨?_, ?_, ?_⟩
  · simp [matchPat, matchOr, isNilP, lookupB, MState.push, MState.pop, MState.merge,
      MState.set, Value.isNull, eraseName]
  · simp [matchPat, matchOr, isNilP, lookupB, MState.push, MState.pop, MState.merge,
      MState.set, Value.isNull, eraseName]
  · simp [lookupB]

/-- Witness for `c3_or_match_amended`: a successful first alternative
and an `Or`-free failing alternative, at concrete inputs. -/
theorem c3_or_match_amended_witness :
    (matchPat (.or [.binding "x" .any]) (.str "a") ⟨[], [[]]⟩ =
        some (.str "a", true, ⟨[("x", .str "a")], [[]]⟩)) ∧
    ((⟨[], [[], []]⟩ : MState).pop = (⟨[], [[]]⟩ : MState)) := by
  constructor
  · have h : matchPat (.binding "x" .any) (.str "a") (MState.push ⟨[], [[]]⟩) =
        some (.str "a", true, ⟨[("x", .str "a")], [["x"], []]⟩) := by
      simp [matchPat, isNilP, lookupB, MState.push, MState.set]
    exact (c3_or_match_amended (.binding "x" .any) [] (.str "a") ⟨[], [[]]⟩).1
      (.str "a") ⟨[("x", .str "a")], [["x"], []]⟩ h
  · have h : matchPat .nil (.str "a") (MState.push ⟨[], [[]]⟩) =
        some (.null, false, ⟨[], [[], []]⟩) := by
      simp [matchPat, MState.push, Value.isNull]
    exact (c3_or_match_amended .nil [] (.str "a") ⟨[], [[]]⟩).2.2
      .null false ⟨[], [[], []]⟩ rfl h

/-- C7: the empty `List` pattern (`List{}`, nil head and tail) matches a
node exactly when it is the empty sequence; in particular it never
matches the host's null (the absent-else case), and the matcher state is
never changed. -/
theorem c7_empty_list (v : Value) (s : MState) :
    ((∃ r s2, matchPat (.list .nil .nil) v s = some (r, true, s2)) ↔ v = .seq []) ∧
    matchPat (.list .nil .nil) .null s = some (.null, false, s) ∧
    (∀ r ok s2, matchPat (.list .nil .nil) v s = some (r, ok, s2) → s2 = s) := by
  refine ⟨⟨?_, ?_⟩, ?_, ?_⟩
  · rintro ⟨r, s2, h⟩
    cases v with
    | seq xs =>
        cases xs with
        | nil => rfl
        | cons x rest => simp [matchPat, isNilP] at h
    | null => simp [matchPat] at h
    | str s3 => simp [matchPat] at h
    | tok t => simp [matchPat] at h
    | node k fs2 => simp [matchPat] at h
  · rintro rfl
    exact ⟨.seq [], s, by simp [matchPat, isNilP]⟩
  · simp [matchPat]
  · intro r ok s2 h
    cases v with
    | seq xs =>
        cases xs with
        | nil => simp [matchPat, isNilP] at h; exact h.2.2.symm
        | cons x rest => simp [matchPat, isNilP] at h; exact h.2.2.symm
    | null => simp [matchPat] at h; exact h.2.2.symm
    | str s3 => simp [matchPat] at h; exact h.2.2.symm
    | tok t => simp [matchPat] at h; exact h.2.2.symm
    | node k fs2 => simp [matchPat] at h; exact h.2.2.symm

/-- C8: `Binding{name, sub}` semantics.  On first use (name unbound)
with a non-nil sub it evaluates `sub` and, on success, records the
matched value under `name` (the recorded value is then retrievable); on
later use with a nil sub it succeeds exactly when the node structurally
re-matches the previously bound value (via the value-side driver); and
evaluating a `Binding` with a non-nil sub whose name is already bound
aborts (the source panics "binding already created") instead of silently
rebinding. -/
theorem c8_binding_semantics (nm : String) (sub : PNode) (v new bv : Value)
    (s s1 : MState) :
    (lookupB nm s.state = none → isNilP sub = false →
      matchPat sub v s = some (new, true, s1) →
      matchPat (.binding nm sub) v s = some (new, true, s1.set nm new) ∧
        lookupB nm (s1.set nm new).state = some new) ∧
    (lookupB nm s.state = some bv →
      matchPat (.binding nm .nil) v s =
        some ((if valueMatch bv v then v else Value.null), valueMatch bv v, s)) ∧
    (lookupB nm s.state = some bv → isNilP sub = false →
      matchPat (.binding nm sub) v s = none) := by
  refine ⟨?_, ?_, ?_⟩
  · intro h1 h2 h3
    refine ⟨?_, ?_⟩
    · simp [matchPat, h1, h2, h3]
    · simp [MState.set, lookupB]
  · intro h1
    simp [matchPat, isNilP, h1]
  · intro h1 h2
    simp [matchPat, h1, h2]

/-- Witness for `c8_binding_semantics`: first use binds and records;
recall against a different node fails; duplicate bind aborts. -/
theorem c8_binding_semantics_witness :
    (matchPat (.binding "x" .any) (.str "a") ⟨[], [[]]⟩ =
        some (.str "a", true, ⟨[("x", .str "a")], [["x"]]⟩) ∧
      lookupB "x" [("x", Value.str "a")] = some (.str "a")) ∧
    (matchPat (.binding "x" .nil) (.null) ⟨[("x", .str "a")], [[]]⟩ =
        some (.null, false, ⟨[("x", .str "a")], [[]]⟩)) ∧
    (matchPat (.binding "x" .any) (.str "b") ⟨[("x", .str "a")], [[]]⟩ = none) := by
  refine ⟨?_, ?_, ?_⟩
  · exact (c8_binding_semantics "x" .any (.str "a") (.str "a") (.str "a")
        ⟨[], [[]]⟩ ⟨[], [[]]⟩).1
      (by simp [lookupB]) (by simp [isNilP]) (by simp [matchPat])
  · have h := (c8_binding_semantics "x" .nil (.null) (.null) (.str "a")
        ⟨[("x", .str "a")], [[]]⟩ ⟨[("x", .str "a")], [[]]⟩).2.1
      (by simp [lookupB])
    simpa [valueMatch] using h
  · exact (c8_binding_semantics "x" .any (.str "b") (.str "b") (.str "a")
        ⟨[("x", .str "a")], [[]]⟩ ⟨[("x", .str "a")], [[]]⟩).2.2
      (by simp [lookupB]) (by simp [isNilP])

/-- C10: matching an `Or` with an empty list of alternatives fails and
leaves the matcher state unchanged. -/
theorem c10_empty_or (v : Value) (s : MState) :
    matchPat (.or []) v s = some (.null, false, s) := by
  simp [matchPat, matchOr]

end PatternMatch

namespace IrLift

/-- IR instructions as far as the `lift` skeleton of `go/ir/lift.go`
needs to distinguish them: `Alloc` (by cell id), `Store`/`Load` (by the
referenced cell id), `Defer`, `RunDefers`, the φ/σ nodes that compaction
prepends, and opaque other instructions. -/
inductive MInstr where
  | alloc (id : Nat)
  | store (addr : Nat) (val : Nat)
  | load (addr : Nat)
  | deferInstr
  | runDefers
  | phiInstr
  | sigmaInstr
  | other (k : Nat)
deriving DecidableEq

/-- A `Function` as far as `lift`'s frame effects are concerned: the
per-block instruction vectors and the `Locals` list (local cells, by
their `Alloc` id). -/
structure MFunc where
  blocks : List (List MInstr)
  locals : List Nat
deriving DecidableEq

def isDefer : MInstr → Bool
  | .deferInstr => true
  | _ => false

def isRunDefers : MInstr → Bool
  | .runDefers => true
  | _ => false

/-- The `usesDefer` flag computed by the scan loop of `lift`
(lift.go:260-262): set exactly when some block contains a `Defer`. -/
def usesDefer (f : MFunc) : Bool :=
  f.blocks.any (fun blk => blk.any isDefer)

/-- `numAllocs > 0`: some `Alloc` in the function was classified
liftable.  The classification itself (`liftable`) is a parameter `lp`
from cell id to the analyzer's verdict. -/
def anyLifted (lp : Nat → Bool) (f : MFunc) : Bool :=
  f.blocks.any (fun blk => blk.any (fun i =>
    match i with
    | .alloc id => lp id
    | _ => false))

/-- The instructions the renaming phase tombstones (sets to `nil`,
incrementing `gaps`): `Alloc`s of liftable cells and `Store`s/`Load`s
whose address is a liftable cell (rename, lift.go:1612-1668). -/
def killedByRename (lp : Nat → Bool) : MInstr → Bool
  | .alloc id => lp id
  | .store addr _ => lp addr
  | .load addr => lp addr
  | _ => false

/-- The compaction loop of `lift` (lift.go:339-440): per block, prepend
the surviving φ/σ head (only present when something was lifted), drop
tombstones, and drop `RunDefers` when `usesDefer` is false.  The
fast path (`j+b.gaps+rundefersToKill == 0`) leaves the block untouched,
which coincides with this rebuild. -/
def compactBlocks (lp : Nat → Bool) (heads : Nat → List MInstr)
    (lifted ud : Bool) : Nat → List (List MInstr) → List (List MInstr)
  | _, [] => []
  | bi, blk :: rest =>
      ((if lifted then heads bi else []) ++
        blk.filter (fun i =>
          !(lifted && killedByRename lp i) && (ud || !(isRunDefers i)))) ::
        compactBlocks lp heads lifted ud (bi + 1) rest

/-- The skeleton of `lift` (lift.go:173-457) for the frame-effect
claims: compute `usesDefer` and the liftable allocs; when nothing is
liftable the expensive machinery is skipped; compaction rebuilds the
blocks; lifted locals (dense `index >= 0`, i.e. classified liftable) are
removed from `Locals`; the return value is `numAllocs > 0`.  The φ/σ
heads produced by placement/renaming are abstracted as the parameter
`heads`; φ-placement itself is modelled in the `PhiPlacement` namespace
and the deferstack eviction (which never touches `RunDefers`) is not
modelled. -/
def liftModel (lp : Nat → Bool) (heads : Nat → List MInstr) (f : MFunc) :
    MFunc × Bool :=
  let ud := usesDefer f
  let lifted := anyLifted lp f
  (⟨compactBlocks lp heads lifted ud 0 f.blocks,
    f.locals.filter (fun l => !(lp l))⟩, lifted)

/-- A liftability verdict and head assignment under which nothing
happens (no liftable cells, no φ/σ heads). -/
def lpNone : Nat → Bool := fun _ => false

def headsNone : Nat → List MInstr := fun _ => []

/-- A function consisting of a single block holding one `RunDefers` and
no `Defer` (and no `Alloc`). -/
def rdOnlyFunc : MFunc := ⟨[[.runDefers]], []⟩


theorem compactBlocks_no_lift (lp : Nat → Bool) (heads : Nat → List MInstr)
    (ud : Bool) (bi : Nat) (blocks : List (List MInstr)) :
    compactBlocks lp heads false ud bi blocks =
      blocks.map (fun blk => blk.filter (fun i => ud || !(isRunDefers i))) := by
  induction blocks generalizing bi with
  | nil => simp [compactBlocks]
  | cons blk rest ih =>
      simp only [compactBlocks, List.map_cons, ih]
      simp

/-- C2 counterexample: a function with no `Alloc`s, one `RunDefers` and
no `Defer`.  `lift` returns false, but the `RunDefers` is removed, so
the function is not left unchanged. -/
theorem c2_lift_noalloc_counterexample :
    (liftModel lpNone headsNone rdOnlyFunc).2 = false ∧
    (liftModel lpNone headsNone rdOnlyFunc).1 ≠ rdOnlyFunc ∧
    (liftModel lpNone headsNone rdOnlyFunc).1 = ⟨[[]], []⟩ := by
  refine ⟨rfl, ?_, rfl⟩
  intro h
  have : ([] : List MInstr) = [.runDefers] := congrArg (fun g => g.blocks.getD 0 []) h
  cases this

/-- C2 (amended): for every function `f` with no `Alloc` instructions
(and `Locals` drawn from the function's `Alloc`s), `lift(f)` returns
false and leaves `Locals` unchanged; the blocks are unchanged except
that, when `f` contains no `Defer`, every `RunDefers` instruction is
removed.  In particular `f` is completely unchanged when it contains a
`Defer` or contains no `RunDefers`. -/
theorem c2_lift_noalloc_amended (lp : Nat → Bool) (heads : Nat → List MInstr)
    (f : MFunc)
    (hna : ∀ blk ∈ f.blocks, ∀ i ∈ blk, ∀ id, i ≠ MInstr.alloc id)
    (hwf : ∀ l ∈ f.locals, ∃ blk ∈ f.blocks, MInstr.alloc l ∈ blk) :
    (liftModel lp heads f).2 = false ∧
    (liftModel lp heads f).1.locals = f.locals ∧
    (liftModel lp heads f).1.blocks =
      f.blocks.map (fun blk => blk.filter (fun i => usesDefer f || !(isRunDefers i))) ∧
    ((usesDefer f = true ∨ ∀ blk ∈ f.blocks, ∀ i ∈ blk, isRunDefers i = false) →
      (liftModel lp heads f).1 = f) := by
  have hlocals : f.locals = [] := by
    cases hl : f.locals with
    | nil => rfl
    | cons l rest =>
        exfalso
        obtain ⟨blk, hblk, hmem⟩ := hwf l (by rw [hl]; simp)
        exact hna blk hblk _ hmem l rfl
  have hlift : anyLifted lp f = false := by
    rw [anyLifted, List.any_eq_false]
    intro blk hblk
    rw [Bool.not_eq_true, List.any_eq_false]
    intro i hi
    cases i <;> simp
    case alloc id => exact absurd rfl (hna blk hblk _ hi id)
  refine ⟨?_, ?_, ?_, ?_⟩
  · simp [liftModel, hlift]
  · simp [liftModel, hlocals]
  · simp [liftModel, hlift, compactBlocks_no_lift]
  · intro hcase
    have hblocks :
        f.blocks.map (fun blk => blk.filter (fun i => usesDefer f || !(isRunDefers i)))
          = f.blocks := by
      rcases hcase with hud | hnr
      · rw [hud]
        simp
      · have : ∀ blk ∈ f.blocks,
            blk.filter (fun i => usesDefer f || !(isRunDefers i)) = id blk := by
          intro blk hblk
          simp only [id]
          apply List.filter_eq_self.2
          intro i hi
          rw [hnr blk hblk i hi]
          simp
        rw [List.map_congr_left this, List.map_id]
    simp only [liftModel, hlift, compactBlocks_no_lift, hlocals]
    rw [hblocks]
    cases f
    simp_all

/-- Witness for `c2_lift_noalloc_amended` at the concrete `RunDefers`
only function. -/
theorem c2_lift_noalloc_amended_witness :
    (liftModel lpNone headsNone rdOnlyFunc).2 = false ∧
    (liftModel lpNone headsNone rdOnlyFunc).1.locals = rdOnlyFunc.locals := by
  have h := c2_lift_noalloc_amended lpNone headsNone rdOnlyFunc
    (by
      intro blk hblk i hi id
      simp only [rdOnlyFunc, List.mem_singleton] at hblk
      subst hblk
      simp only [List.mem_singleton] at hi
      subst hi
      simp)
    (by intro l hl; simp [rdOnlyFunc] at hl)
  exact ⟨h.1, h.2.1⟩

/-- Number of `RunDefers` instructions in a block. -/
def countRunDefers (blk : List MInstr) : Nat :=
  (blk.filter isRunDefers).length

theorem isRunDefers_iff (i : MInstr) : isRunDefers i = true ↔ i = .runDefers := by
  cases i <;> simp [isRunDefers]

theorem compact_no_runDefers (lp : Nat → Bool) (heads : Nat → List MInstr)
    (lifted : Bool)
    (hheads : ∀ bi, ∀ i ∈ heads bi, i = MInstr.phiInstr ∨ i = MInstr.sigmaInstr) :
    ∀ (bi : Nat) (blocks : List (List MInstr)),
      ∀ blk ∈ compactBlocks lp heads lifted false bi blocks,
        ∀ i ∈ blk, isRunDefers i = false := by
  intro bi blocks
  induction blocks generalizing bi with
  | nil => simp [compactBlocks]
  | cons b rest ih =>
      intro blk hblk i hi
      simp only [compactBlocks, List.mem_cons] at hblk
      rcases hblk with rfl | hblk
      · rcases List.mem_append.1 hi with hh | hf
        · cases lifted with
          | false => simp at hh
          | true =>
              simp only [if_true] at hh
              rcases hheads bi i hh with rfl | rfl <;> simp [isRunDefers]
        · have hp := List.of_mem_filter hf
          simp only [Bool.and_eq_true, Bool.or_eq_true, Bool.not_eq_true'] at hp
          rcases hp.2 with hc | hc
          · cases hc
          · exact hc
      · exact ih (bi + 1) blk hblk i hi

theorem compact_count_runDefers (lp : Nat → Bool) (heads : Nat → List MInstr)
    (lifted : Bool)
    (hheads : ∀ bi, ∀ i ∈ heads bi, i = MInstr.phiInstr ∨ i = MInstr.sigmaInstr) :
    ∀ (bi n : Nat) (blocks : List (List MInstr)),
      countRunDefers ((compactBlocks lp heads lifted true bi blocks).getD n []) =
        countRunDefers (blocks.getD n []) := by
  intro bi n blocks
  induction blocks generalizing bi n with
  | nil => simp [compactBlocks]
  | cons b rest ih =>
      cases n with
      | succ m => simpa [compactBlocks] using ih (bi + 1) m
      | zero =>
          simp only [compactBlocks, List.getD_cons_zero]
          rw [countRunDefers, List.filter_append, List.length_append]
          have hhead : ((if lifted then heads bi else []).filter isRunDefers) = [] := by
            cases lifted with
            | false => simp
            | true =>
                simp only [if_true]
                rw [List.filter_eq_nil_iff]
                intro i hih
                rcases hheads bi i hih with rfl | rfl <;> simp [isRunDefers]
          rw [hhead]
          simp only [List.length_nil, Nat.zero_add]
          rw [List.filter_comm]
          have : (b.filter isRunDefers).filter
              (fun i => !(lifted && killedByRename lp i) && (true || !(isRunDefers i)))
                = b.filter isRunDefers := by
            apply List.filter_eq_self.2
            intro i hi
            have hrd := List.of_mem_filter hi
            rw [isRunDefers_iff] at hrd
            subst hrd
            simp [killedByRename]
          rw [this, countRunDefers]

/-- C6: after `lift(f)`, if `f` contains no `Defer` then the result
contains no `RunDefers` (every `RunDefers` is removed); if `f` contains
at least one `Defer`, every `RunDefers` is retained (per-block counts
are preserved). -/
theorem c6_rundefers_elision (lp : Nat → Bool) (heads : Nat → List MInstr)
    (f : MFunc)
    (hheads : ∀ bi, ∀ i ∈ heads bi, i = MInstr.phiInstr ∨ i = MInstr.sigmaInstr) :
    (usesDefer f = false →
      ∀ blk ∈ (liftModel lp heads f).1.blocks, ∀ i ∈ blk, isRunDefers i = false) ∧
    (usesDefer f = true →
      ∀ bi, countRunDefers ((liftModel lp heads f).1.blocks.getD bi []) =
        countRunDefers (f.blocks.getD bi [])) := by
  constructor
  · intro hud
    simp only [liftModel, hud]
    exact compact_no_runDefers lp heads (anyLifted lp f) hheads 0 f.blocks
  · intro hud
    intro bi
    simp only [liftModel, hud]
    exact compact_count_runDefers lp heads (anyLifted lp f) hheads 0 bi f.blocks

/-- Witness for `c6_rundefers_elision`: a function with a `Defer` and a
`RunDefers`, and empty φ/σ heads. -/
theorem c6_rundefers_elision_witness :
    countRunDefers ((liftModel lpNone headsNone
        ⟨[[MInstr.deferInstr, MInstr.runDefers]], []⟩).1.blocks.getD 0 []) =
      countRunDefers ((⟨[[MInstr.deferInstr, MInstr.runDefers]], []⟩ : MFunc).blocks.getD 0 []) := by
  exact (c6_rundefers_elision lpNone headsNone
      ⟨[[MInstr.deferInstr, MInstr.runDefers]], []⟩
      (by intro bi i hi; simp [headsNone] at hi)).2 (by decide) 0

end IrLift

namespace Closure

/-- `addInterval` of `transitiveClosure` (lift.go:790-799).  A run
`[s, e]` with length `l = e - s ≤ 2^11 - 1 = 2047` is encoded as the
single word `l <<< 20 ||| s` (top bit 0); otherwise as the two words
`1 <<< 31 ||| s` and `e`.  Since `s < 2^20`, the bit packing coincides
with the arithmetic form `l * 2^20 + s` resp. `2^31 + s` used here. -/
def addInterval (s e : Nat) : List Nat :=
  if e - s ≤ 2047 then [(e - s) * 2 ^ 20 + s]
  else [2 ^ 31 + s, e]

/-- The run-length encoding loop of `transitiveClosure`
(lift.go:807-822): scan the reachability vector, emitting one interval
per maximal run of `true` bits; `id` is the index of the next bit and
`start` the first index of the pending run (`^uint32(0)` models as
`none`). -/
def encodeRuns (id : Nat) (start : Option Nat) : List Bool → List Nat
  | [] =>
      match start with
      | some s => addInterval s (id - 1)
      | none => []
  | bit :: rest =>
      if bit then
        match start with
        | none => encodeRuns (id + 1) (some id) rest
        | some s => encodeRuns (id + 1) (some s) rest
      else
        match start with
        | some s => addInterval s (id - 1) ++ encodeRuns (id + 1) none rest
        | none => encodeRuns (id + 1) none rest

/-- The encoded interval list for one reachability vector. -/
def encodeIntervals (reach : List Bool) : List Nat := encodeRuns 0 none reach

mutual

/-- The linear interval scan of `closure.has` (lift.go:747-765).  A word
below `2^31` (flag bit clear) is a small interval: `start = inv &&&
numMask` (arithmetically `inv % 2^20`) and `end = start + (inv &&&
lengthMask) >>> 20` (arithmetically `inv % 2^31 / 2^20`); otherwise the
word and its successor form a large interval with inclusive end the
second word. -/
def covers : List Nat → Nat → Bool
  | [], _ => false
  | inv :: rest, idx =>
      if inv < 2 ^ 31 then
        (decide (inv % 2 ^ 20 ≤ idx) &&
          decide (idx ≤ inv % 2 ^ 20 + inv % 2 ^ 31 / 2 ^ 20)) || covers rest idx
      else coversLarge inv rest idx
termination_by l idx => l.length

/-- Decoding of the second word of a large interval: the first word
`inv` supplies `start`, the second the inclusive end; on a dangling
first word (never emitted) the scan stops. -/
def coversLarge (inv : Nat) : List Nat → Nat → Bool
  | [], _ => false
  | w :: rest2, idx =>
      (decide (inv % 2 ^ 20 ≤ idx) && decide (idx ≤ w)) || covers rest2 idx
termination_by l idx => l.length

end

/-- `closure.has` (lift.go:742-766): short-circuit to true when `v` is
block index 1 or `s` dominates `v`; otherwise linearly scan the
intervals recorded for `s`. -/
def closureHas (dominates : Nat → Nat → Bool) (intervals : List Nat)
    (s v : Nat) : Bool :=
  if v == 1 || dominates s v then true else covers intervals v

theorem covers_addInterval (s e idx : Nat) (rest : List Nat)
    (hs : s < 2 ^ 20) (he : e < 2 ^ 20) (hse : s ≤ e) :
    covers (addInterval s e ++ rest) idx =
      ((decide (s ≤ idx) && decide (idx ≤ e)) || covers rest idx) := by
  rw [addInterval]
  by_cases hl : e - s ≤ 2047
  · rw [if_pos hl, List.singleton_append]
    have h1 : (e - s) * 2 ^ 20 + s < 2 ^ 31 := by omega
    have h2 : ((e - s) * 2 ^ 20 + s) % 2 ^ 20 = s := by omega
    have h3 : ((e - s) * 2 ^ 20 + s) % 2 ^ 31 / 2 ^ 20 = e - s := by omega
    have h4 : s + (e - s) = e := by omega
    simp only [covers, if_pos h1, h2, h3, h4]
  · rw [if_neg hl, List.cons_append, List.singleton_append]
    have h1 : ¬(2 ^ 31 + s < 2 ^ 31) := by omega
    have h2 : (2 ^ 31 + s) % 2 ^ 20 = s := by omega
    simp only [covers, if_neg h1, coversLarge, h2]

theorem covers_encodeRuns (bits : List Bool) :
    ∀ (id : Nat) (start : Option Nat) (idx : Nat),
      (∀ s, start = some s → s < id ∧ s < 2 ^ 20) →
      id + bits.length ≤ 2 ^ 20 →
      (covers (encodeRuns id start bits) idx = true ↔
        ((∃ s, start = some s ∧ s ≤ idx ∧ idx < id) ∨
          (id ≤ idx ∧ bits.getD (idx - id) false = true))) := by
  induction bits with
  | nil =>
      intro id start idx hstart hbound
      cases start with
      | none => simp [encodeRuns, covers]
      | some s =>
          obtain ⟨hsid, hs20⟩ := hstart s rfl
          have hrw : encodeRuns id (some s) [] = addInterval s (id - 1) ++ [] := by
            simp [encodeRuns]
          rw [hrw, covers_addInterval s (id - 1) idx [] hs20 (by omega) (by omega)]
          simp only [covers, Bool.or_false, Bool.and_eq_true, decide_eq_true_eq]
          constructor
          · rintro ⟨h1, h2⟩
            exact Or.inl ⟨s, rfl, h1, by omega⟩
          · rintro (⟨s2, hs2, h1, h2⟩ | ⟨h1, h2⟩)
            · injection hs2 with hs2; subst hs2
              exact ⟨h1, by omega⟩
            · simp at h2
  | cons bit rest ih =>
      intro id start idx hstart hbound
      simp only [List.length_cons] at hbound
      cases bit with
      | true =>
          cases start with
          | none =>
              have hrw : encodeRuns id none (true :: rest) =
                  encodeRuns (id + 1) (some id) rest := by
                simp [encodeRuns]
              rw [hrw, ih (id + 1) (some id) idx
                (by
                  intro s2 hs2
                  injection hs2 with hs2
                  subst hs2
                  exact ⟨by omega, by omega⟩)
                (by omega)]
              constructor
              · rintro (⟨s2, hs2, h1, h2⟩ | ⟨h1, h2⟩)
                · injection hs2 with hs2; subst hs2
                  have hidx : idx = id := by omega
                  subst hidx
                  exact Or.inr ⟨Nat.le_refl _, by simp⟩
                · refine Or.inr ⟨by omega, ?_⟩
                  have hk : idx - id = (idx - (id + 1)) + 1 := by omega
                  rw [hk, List.getD_cons_succ]
                  exact h2
              · rintro (⟨s2, hs2, h1, h2⟩ | ⟨h1, h2⟩)
                · cases hs2
                · by_cases hidx : idx = id
                  · subst hidx
                    exact Or.inl ⟨_, rfl, Nat.le_refl _, by omega⟩
                  · refine Or.inr ⟨by omega, ?_⟩
                    have hk : idx - id = (idx - (id + 1)) + 1 := by omega
                    rw [hk, List.getD_cons_succ] at h2
                    exact h2
          | some s =>
              obtain ⟨hsid, hs20⟩ := hstart s rfl
              have hrw : encodeRuns id (some s) (true :: rest) =
                  encodeRuns (id + 1) (some s) rest := by
                simp [encodeRuns]
              rw [hrw, ih (id + 1) (some s) idx
                (by
                  intro s2 hs2
                  injection hs2 with hs2
                  subst hs2
                  exact ⟨by omega, hs20⟩)
                (by omega)]
              constructor
              · rintro (⟨s2, hs2, h1, h2⟩ | ⟨h1, h2⟩)
                · injection hs2 with hs2; subst hs2
                  by_cases hidx : idx < id
                  · exact Or.inl ⟨s, rfl, h1, hidx⟩
                  · have hidx2 : idx = id := by omega
                    subst hidx2
                    exact Or.inr ⟨Nat.le_refl _, by simp⟩
                · refine Or.inr ⟨by omega, ?_⟩
                  have hk : idx - id = (idx - (id + 1)) + 1 := by omega
                  rw [hk, List.getD_cons_succ]
                  exact h2
              · rintro (⟨s2, hs2, h1, h2⟩ | ⟨h1, h2⟩)
                · injection hs2 with hs2; subst hs2
                  exact Or.inl ⟨s, rfl, h1, by omega⟩
                · by_cases hidx : idx = id
                  · subst hidx
                    exact Or.inl ⟨s, rfl, by omega, by omega⟩
                  · refine Or.inr ⟨by omega, ?_⟩
                    have hk : idx - id = (idx - (id + 1)) + 1 := by omega
                    rw [hk, List.getD_cons_succ] at h2
                    exact h2
      | false =>
          cases start with
          | none =>
              have hrw : encodeRuns id none (false :: rest) =
                  encodeRuns (id + 1) none rest := by
                simp [encodeRuns]
              rw [hrw, ih (id + 1) none idx (by rintro s2 hs2; cases hs2) (by omega)]
              constructor
              · rintro (⟨s2, hs2, h1, h2⟩ | ⟨h1, h2⟩)
                · cases hs2
                · refine Or.inr ⟨by omega, ?_⟩
                  have hk : idx - id = (idx - (id + 1)) + 1 := by omega
                  rw [hk, List.getD_cons_succ]
                  exact h2
              · rintro (⟨s2, hs2, h1, h2⟩ | ⟨h1, h2⟩)
                · cases hs2
                · by_cases hidx : idx = id
                  · subst hidx
                    simp at h2
                  · refine Or.inr ⟨by omega, ?_⟩
                    have hk : idx - id = (idx - (id + 1)) + 1 := by omega
                    rw [hk, List.getD_cons_succ] at h2
                    exact h2
          | some s =>
              obtain ⟨hsid, hs20⟩ := hstart s rfl
              have hrw : encodeRuns id (some s) (false :: rest) =
                  addInterval s (id - 1) ++ encodeRuns (id + 1) none rest := by
                simp [encodeRuns]
              rw [hrw, covers_addInterval s (id - 1) idx _ hs20 (by omega) (by omega)]
              rw [Bool.or_eq_true, Bool.and_eq_true, decide_eq_true_eq, decide_eq_true_eq]
              rw [ih (id + 1) none idx (by rintro s2 hs2; cases hs2) (by omega)]
              constructor
              · rintro (⟨h1, h2⟩ | h)
                · exact Or.inl ⟨s, rfl, h1, by omega⟩
                · rcases h with ⟨s2, hs2, _, _⟩ | ⟨h1, h2⟩
                  · cases hs2
                  · refine Or.inr ⟨by omega, ?_⟩
                    have hk : idx - id = (idx - (id + 1)) + 1 := by omega
                    rw [hk, List.getD_cons_succ]
                    exact h2
              · rintro (⟨s2, hs2, h1, h2⟩ | ⟨h1, h2⟩)
                · injection hs2 with hs2; subst hs2
                  exact Or.inl ⟨h1, by omega⟩
                · by_cases hidx : idx = id
                  · subst hidx
                    simp at h2
                  · refine Or.inr (Or.inr ⟨by omega, ?_⟩)
                    have hk : idx - id = (idx - (id + 1)) + 1 := by omega
                    rw [hk, List.getD_cons_succ] at h2
                    exact h2

/-- C9: over the intervals `transitiveClosure` encodes for a block `s`
from its recorded reachability vector, `has(s, v)` returns true when `v`
is block index 1 or `s` dominates `v`, and otherwise exactly when `v` is
in the recorded set; the small one-word format (start in the low 20
bits, length in the next 11, top bit 0) is used exactly for run lengths
0…2047 and the two-word large format (top bit of the first word set)
otherwise. -/
theorem c9_closure_has (dominates : Nat → Nat → Bool) (reach : List Bool)
    (s v : Nat) (hlen : reach.length ≤ 2 ^ 20) :
    (closureHas dominates (encodeIntervals reach) s v = true ↔
      (v = 1 ∨ dominates s v = true ∨ reach.getD v false = true)) ∧
    (∀ a b : Nat, a ≤ b → b < 2 ^ 20 →
      (((addInterval a b).length = 1 ∧ (addInterval a b).getD 0 0 < 2 ^ 31) ↔
        b - a ≤ 2047) ∧
      (¬ b - a ≤ 2047 →
        (addInterval a b).length = 2 ∧ 2 ^ 31 ≤ (addInterval a b).getD 0 0)) := by
  constructor
  · rw [closureHas]
    by_cases hsv : (v == 1 || dominates s v) = true
    · rw [if_pos hsv]
      rw [Bool.or_eq_true, beq_iff_eq] at hsv
      simp only [true_iff]
      rcases hsv with h | h
      · exact Or.inl h
      · exact Or.inr (Or.inl h)
    · rw [if_neg hsv]
      rw [Bool.or_eq_true, beq_iff_eq] at hsv
      push_neg at hsv
      rw [encodeIntervals,
        covers_encodeRuns reach 0 none v (by rintro s2 hs2; cases hs2) (by omega)]
      constructor
      · rintro (⟨s2, hs2, _, _⟩ | ⟨_, h2⟩)
        · cases hs2
        · exact Or.inr (Or.inr h2)
      · rintro (h | h | h)
        · exact absurd h hsv.1
        · exact absurd h (by simpa using hsv.2)
        · exact Or.inr ⟨Nat.zero_le _, h⟩
  · intro a b hab hb20
    constructor
    · constructor
      · rintro ⟨h1, _⟩
        by_contra hbig
        rw [addInterval, if_neg hbig] at h1
        simp at h1
      · intro hsmall
        rw [addInterval, if_pos hsmall]
        exact ⟨rfl, by simp; omega⟩
    · intro hbig
      rw [addInterval, if_neg hbig]
      exact ⟨rfl, by simp⟩

/-- Witness for `c9_closure_has` at a concrete reachability vector. -/
theorem c9_closure_has_witness :
    closureHas (fun _ _ => false) (encodeIntervals [false, false, true, true]) 5 3 = true ∧
    closureHas (fun _ _ => false) (encodeIntervals [false, false, true, true]) 5 0 = false := by
  have h3 := (c9_closure_has (fun _ _ => false) [false, false, true, true] 5 3
    (by norm_num)).1
  have h0 := (c9_closure_has (fun _ _ => false) [false, false, true, true] 5 0
    (by norm_num)).1
  constructor
  · exact h3.2 (Or.inr (Or.inr (by simp)))
  · by_contra hc
    rw [Bool.not_eq_false] at hc
    rcases h0.1 hc with h | h | h
    · cases h
    · cases h
    · simp at h

end Closure

namespace PhiPlacement

/-- `BlockSet` (lift.go:651-725): a bool vector with a cached count and
a rotating cursor `idx` so that `Take` resumes scanning from the last
yielded position. -/
structure BSet where
  idx : Nat
  values : List Bool
  count : Nat

/-- `BlockSet.Add`: returns the updated set and whether it changed. -/
def BSet.add (s : BSet) (b : Nat) : BSet × Bool :=
  if s.values.getD b false then (s, false)
  else (⟨b, s.values.set b true, s.count + 1⟩, true)

/-- First index in `[lo, lo+n)` whose bit is set. -/
def findTrue (vals : List Bool) (lo n : Nat) : Option Nat :=
  (List.range' lo n).find? (fun i => vals.getD i false)

/-- `BlockSet.Take` (lift.go:703-725): scan `[idx, end)`, then
`[0, idx)`; clear and return the found index, or `none` when empty. -/
def BSet.take (s : BSet) : BSet × Option Nat :=
  match findTrue s.values s.idx (s.values.length - s.idx) with
  | some i => (⟨i, s.values.set i false, s.count - 1⟩, some i)
  | none =>
      match findTrue s.values 0 s.idx with
      | some i => (⟨i, s.values.set i false, s.count - 1⟩, some i)
      | none => (s, none)

/-- `BlockSet.Set` (lift.go:661-669): copy the other set's values and
recount; the cursor is kept. -/
def BSet.copyFrom (s other : BSet) : BSet :=
  ⟨s.idx, other.values, (other.values.filter id).length⟩

/-- A φ-node as created by `liftAlloc` (lift.go:1260-1262): the block it
is placed in, and its edge vector `make([]Value, len(y.Preds))` — one
slot per predecessor, by predecessor position, filled during renaming
(`phi.Edges[i] = newval` at `i = v.predIndex(u)`). -/
structure PlacedPhi where
  block : Nat
  edges : List (Option Nat)

/-- The mutable state of the φ-insertion loop: `Aphi`, `defblocks`,
`useblocks`, the worklist `W`, the outer `change` flag and the φ-nodes
placed so far (`newPhis`, flattened). -/
structure PhiState where
  aphi : BSet
  defb : BSet
  useb : BSet
  w : BSet
  changed : Bool
  phis : List PlacedPhi

/-- The φ-creating tail of the `Aphi.Add(y)` branch
(lift.go:1260-1278): append the new φ (with `len(y.Preds)` edge slots),
add all predecessors to `useblocks`, set `change`, and add `y` to
`defblocks`, queueing it on `W` when that changed. -/
def insertPhi (preds : Nat → List Nat) (y : Nat) (st : PhiState) : PhiState :=
  let st3 := { st with
    phis := st.phis ++ [PlacedPhi.mk y (List.replicate (preds y).length none)],
    useb := (preds y).foldl (fun u p => (u.add p).1) st.useb,
    changed := true }
  if (st3.defb.add y).2 then
    { st3 with defb := (st3.defb.add y).1, w := (st3.w.add y).1 }
  else { st3 with defb := (st3.defb.add y).1 }

/-- One `y` of the inner loop over `df[n.Index]` (lift.go:1220-1259):
when `y` newly enters `Aphi`, skip if the alloc has no referrers, if no
load of the cell is reachable from `y` (`live`, the closure-pruning
check), or if `y` has no predecessors (the unreachable-exit guard);
otherwise create the φ. -/
def phiStep (preds : Nat → List Nat) (live : Nat → Bool) (hasRef : Bool)
    (y : Nat) (st : PhiState) : PhiState :=
  if (st.aphi.add y).2 then
    if !hasRef then { st with aphi := (st.aphi.add y).1 }
    else if !(live y) then { st with aphi := (st.aphi.add y).1 }
    else if (preds y).length = 0 then { st with aphi := (st.aphi.add y).1 }
    else insertPhi preds y { st with aphi := (st.aphi.add y).1 }
  else st

/-- The loop over the dominance frontier list `df[i]`. -/
def processDF (preds : Nat → List Nat) (live : Nat → Bool) (hasRef : Bool) :
    List Nat → PhiState → PhiState
  | [], st => st
  | y :: ys, st => processDF preds live hasRef ys (phiStep preds live hasRef y st)

/-- The worklist loop `for i := W.Take(); i != -1; i = W.Take()`
(lift.go:1218), with fuel (the source terminates because the monotone
sets are finite; the invariant below holds for every fuel). -/
def takeLoop (preds df : Nat → List Nat) (live : Nat → Bool) (hasRef : Bool) :
    Nat → PhiState → PhiState
  | 0, st => st
  | fuel + 1, st =>
      match st.w.take with
      | (w2, none) => { st with w := w2 }
      | (w2, some i) =>
          takeLoop preds df live hasRef fuel
            (processDF preds live hasRef (df i) { st with w := w2 })

/-- The outer `for change := true; change;` loop of `liftAlloc`
(lift.go:1212), restricted to its φ half: reset `change`, set
`W := defblocks` (`W.Set(defblocks)`), run the take loop, repeat while
something changed.  The σ half never creates φ-nodes and only grows the
`defblocks`/`useblocks` sets, over whose contents the theorem below is
universally quantified. -/
def phiLoop (preds df : Nat → List Nat) (live : Nat → Bool) (hasRef : Bool) :
    Nat → PhiState → PhiState
  | 0, st => st
  | fuel + 1, st =>
      let st1 := takeLoop preds df live hasRef fuel
        { st with changed := false, w := st.w.copyFrom st.defb }
      if st1.changed then phiLoop preds df live hasRef fuel st1 else st1

/-- Well-formedness of the placed φ-nodes: every φ sits in a block with
at least one predecessor and has exactly one edge slot per predecessor
(positionally, in predecessor order). -/
def phiWF (preds : Nat → List Nat) (phis : List PlacedPhi) : Prop :=
  ∀ φ ∈ phis, φ.edges.length = (preds φ.block).length ∧ preds φ.block ≠ []

theorem insertPhi_phis (preds : Nat → List Nat) (y : Nat) (st : PhiState) :
    (insertPhi preds y st).phis =
      st.phis ++ [PlacedPhi.mk y (List.replicate (preds y).length none)] := by
  simp only [insertPhi]
  split <;> rfl

theorem phiStep_phis (preds : Nat → List Nat) (live : Nat → Bool) (hasRef : Bool)
    (y : Nat) (st : PhiState) :
    (phiStep preds live hasRef y st).phis = st.phis ∨
      ((preds y).length ≠ 0 ∧
        (phiStep preds live hasRef y st).phis =
          st.phis ++ [PlacedPhi.mk y (List.replicate (preds y).length none)]) := by
  rw [phiStep]
  by_cases h1 : (st.aphi.add y).2 = true
  · rw [if_pos h1]
    by_cases h2 : (!hasRef) = true
    · rw [if_pos h2]; exact Or.inl rfl
    · rw [if_neg h2]
      by_cases h3 : (!(live y)) = true
      · rw [if_pos h3]; exact Or.inl rfl
      · rw [if_neg h3]
        by_cases h4 : (preds y).length = 0
        · rw [if_pos h4]; exact Or.inl rfl
        · rw [if_neg h4]
          exact Or.inr ⟨h4, insertPhi_phis preds y _⟩
  · rw [if_neg h1]; exact Or.inl rfl

theorem phiStep_wf (preds : Nat → List Nat) (live : Nat → Bool) (hasRef : Bool)
    (y : Nat) (st : PhiState) (h : phiWF preds st.phis) :
    phiWF preds (phiStep preds live hasRef y st).phis := by
  rcases phiStep_phis preds live hasRef y st with heq | ⟨hne, heq⟩
  · rw [heq]; exact h
  · rw [heq]
    intro φ hφ
    rcases List.mem_append.1 hφ with hm | hm
    · exact h φ hm
    · simp only [List.mem_singleton] at hm
      subst hm
      refine ⟨by simp, ?_⟩
      intro hp
      exact hne (by rw [hp]; rfl)

theorem processDF_wf (preds : Nat → List Nat) (live : Nat → Bool) (hasRef : Bool) :
    ∀ (ys : List Nat) (st : PhiState), phiWF preds st.phis →
      phiWF preds (processDF preds live hasRef ys st).phis := by
  intro ys
  induction ys with
  | nil => intro st h; simpa [processDF] using h
  | cons y ys ih =>
      intro st h
      rw [processDF]
      exact ih _ (phiStep_wf preds live hasRef y st h)

theorem takeLoop_wf (preds df : Nat → List Nat) (live : Nat → Bool) (hasRef : Bool) :
    ∀ (fuel : Nat) (st : PhiState), phiWF preds st.phis →
      phiWF preds (takeLoop preds df live hasRef fuel st).phis := by
  intro fuel
  induction fuel with
  | zero => intro st h; simpa [takeLoop] using h
  | succ fuel ih =>
      intro st h
      rw [takeLoop]
      rcases htake : st.w.take with ⟨w2, oi⟩
      cases oi with
      | none => simpa using h
      | some i => exact ih _ (processDF_wf preds live hasRef (df i) _ h)

/-- C4: every φ-node created by the φ-insertion loop of `liftAlloc` is
placed in a block with at least one predecessor and carries exactly one
edge slot per predecessor of that block, positionally in predecessor
order; a block with zero predecessors never receives a φ.  This holds
for every fuel, initial work/def/use sets, pruning oracle and dominance
frontier. -/
theorem c4_phi_placement (preds df : Nat → List Nat) (live : Nat → Bool)
    (hasRef : Bool) (fuel : Nat) (st : PhiState)
    (hwf : phiWF preds st.phis) :
    phiWF preds (phiLoop preds df live hasRef fuel st).phis := by
  induction fuel generalizing st with
  | zero => simpa [phiLoop] using hwf
  | succ fuel ih =>
      rw [phiLoop]
      have h1 := takeLoop_wf preds df live hasRef fuel
        { st with changed := false, w := st.w.copyFrom st.defb } hwf
      split
      · exact ih _ h1
      · exact h1

/-- A 4-block diamond CFG (`0 → 1,2 → 3`) with its dominance frontier,
and an empty initial placement state over it. -/
def diamondPreds : Nat → List Nat := fun n => [[], [0], [0], [1, 2]].getD n []

def diamondDF : Nat → List Nat := fun n => [[], [3], [3], []].getD n []

def diamondState : PhiState :=
  { aphi := ⟨0, List.replicate 4 false, 0⟩,
    defb := ⟨0, [false, true, true, false], 2⟩,
    useb := ⟨0, List.replicate 4 false, 0⟩,
    w := ⟨0, List.replicate 4 false, 0⟩,
    changed := true,
    phis := [] }

/-- Witness for `c4_phi_placement` on the concrete diamond CFG. -/
theorem c4_phi_placement_witness :
    phiWF diamondPreds
      (phiLoop diamondPreds diamondDF (fun _ => true) true 5 diamondState).phis :=
  c4_phi_placement diamondPreds diamondDF (fun _ => true) true 5 diamondState
    (by intro φ h; simp [diamondState] at h)

end PhiPlacement

namespace SymbolAlias

/-- The `go/types` data the `*types.TypeName` branch of `Symbol.Match`
consults: a basic type (`*types.Basic`, by name), a defined (named,
non-alias) type, or an alias whose right-hand side is one further type
layer.  `pkgScope` models `obj.Parent() == obj.Pkg().Scope()`; `typeStr`
models `types.TypeString(obj.Type(), nil)`. -/
inductive GoType where
  | basic (name : String)
  | named (pkgScope : Bool) (typeStr : String)
  | alias (pkgScope : Bool) (typeStr : String) (rhs : GoType)

/-- `types.Unalias`: removes all alias layers at once, yielding the
final (non-alias) target type. -/
def unalias : GoType → GoType
  | .alias _ _ rhs => unalias rhs
  | t => t

/-- The `*types.TypeName` branch of `Symbol.Match` (match.go:588-610):
check package scope, match against the textual form of the type; on
failure, when the object is an alias, switch on
`types.Unalias(obj.Type())`: a target with a `TypeName` re-enters the
loop with that (non-alias) object — which immediately returns its own
scope check and name match, inlined here — a `*types.Basic` target is
matched by its short name, and anything else fails.  `nameMatches` abstracts
`match(m, fn.Name, name)` on the `Symbol`'s name subpattern. -/
def symbolTypeNameMatch (nameMatches : String → Bool) : GoType → Bool
  | .basic _ => false
  | .named ps str => ps && nameMatches str
  | .alias ps str rhs =>
      if !ps then false
      else if nameMatches str then true
      else
        match unalias rhs with
        | .basic b => nameMatches b
        | .named ps2 str2 => ps2 && nameMatches str2
        | .alias _ _ _ => false

/-- Modelled from the spec: the alias chasing §4.3 describes — "if the
object is an alias and the match fails, unwrap one layer and retry,
continuing until either a match is found or no further layer exists". -/
def symbolTypeNameMatchSpec (nameMatches : String → Bool) : GoType → Bool
  | .basic b => nameMatches b
  | .named ps str => ps && nameMatches str
  | .alias ps str rhs =>
      if !ps then false
      else if nameMatches str then true
      else symbolTypeNameMatchSpec nameMatches rhs

/-- The two-layer alias chain `type B = int; type A = B` in package
`pkg`, with alias tracking enabled: `A`'s type prints as `pkg.A`, its
alias target is `B`, whose type prints as `pkg.B` and aliases `int`. -/
def chainAB : GoType :=
  .alias true "pkg.A" (.alias true "pkg.B" (.basic "int"))

/-- C5: the source does not unwrap one alias layer at a time —
`types.Unalias` jumps over every intermediate alias (the `FIXME(dh)` at
match.go:599 records the intended one-layer behaviour).  On the chain
`A = B`, `B = int`, matching the intermediate alias name `pkg.B` fails
in the code but succeeds under the specification's one-layer unwrapping;
the alias's own name and the final target's name do match. -/
theorem c5_symbol_alias_divergence :
    symbolTypeNameMatch (fun n => n == "pkg.B") chainAB = false ∧
    symbolTypeNameMatchSpec (fun n => n == "pkg.B") chainAB = true ∧
    symbolTypeNameMatch (fun n => n == "pkg.A") chainAB = true ∧
    symbolTypeNameMatch (fun n => n == "int") chainAB = true ∧
    symbolTypeNameMatchSpec (fun n => n == "pkg.A") chainAB = true ∧
    symbolTypeNameMatchSpec (fun n => n == "int") chainAB = true := by
  refine ⟨?_, ?_, ?_, ?_, ?_, ?_⟩ <;> rfl

end SymbolAlias
